import Mathlib

/-!
Verification of the Gitify history-mutation engine.

This file gives a shallow embedding of the engine implemented in
`src/extension.ts`: the repository state acted on by the git commands the
engine issues, the two public operations `makeHead` (reposition a commit to
become a branch's new tip) and `deleteCommit` (remove a commit from a
branch's history), and the helper checks `ensureCleanState` (here
`cleanCheck`), `hasMergesInHistory`, the ancestry test, and the request-size
clamp of `getCommits`.  Git plumbing is modelled for the linear histories the
engine is designed for: a commit carries its list of parent hashes and the
identity of its logical change; replaying (cherry-picking) a commit produces
a fresh commit carrying the same change.  Fallible external commands
(cherry-pick, checkout, rebase) take their outcomes from an explicit
environment, and each operation returns the final repository together with
the trace of mutating git commands it issued and an optional error.
-/

namespace Gitify

/-- A commit record: parent hashes (first parent first) and the identity of
its logical change.  `git rev-list --parents -n 1 c` yields the parents;
cherry-picking `c` elsewhere yields a new hash with the same change. -/
structure CommitData where
  parents : List Nat
  change : Nat
deriving DecidableEq

/-- Repository state seen by the engine: the commit map, the branch
references, the currently checked-out branch (`HEAD`), working-tree and
index dirtiness, the four in-progress-rewrite markers probed by
`ensureCleanState`, the backup references under `refs/backup/git-dnd/`, and
a counter supplying fresh hashes for replayed commits. -/
structure Repo where
  commits : List (Nat × CommitData)
  branches : List (String × Nat)
  head : String
  workDirty : Bool
  idxDirty : Bool
  rebaseActive : Bool
  mergeActive : Bool
  cherryActive : Bool
  revertActive : Bool
  backups : List (String × Nat)
  nextHash : Nat
deriving DecidableEq

/-- Hash freshness: every commit hash in the map is below the fresh-hash
counter, so newly minted hashes never collide with existing ones. -/
def Repo.WF (r : Repo) : Prop := ∀ p ∈ r.commits, p.1 < r.nextHash

/-- Outcome of one `git cherry-pick <hash>` invocation: success, failure
with the previous-cherry-pick-is-now-empty diagnostic, or any other
failure (a conflict). -/
inductive PickOutcome
  | ok
  | empty
  | conflict
deriving DecidableEq

/-- Environment of the fallible external commands: the outcome of
cherry-picking each original commit, whether `git checkout` of a branch
succeeds, whether a synthesized root rebase or a `rebase --onto` succeeds,
and the timestamp string used in backup reference names. -/
structure Env where
  pick : Nat → PickOutcome
  checkoutOk : String → Bool
  rebaseOk : Bool
  ts : String

/-- Trace of the mutating git commands an operation issues. -/
inductive Ev
  | backup (ref : String) (tip : Nat)
  | checkout (b : String)
  | reset (h : Nat)
  | pick (h : Nat)
  | pickSkip
  | pickAbort
  | setRef (b : String) (h : Nat)
  | rebaseRoot
  | rebaseOnto (parent target : Nat)
  | rebaseAbort
deriving DecidableEq

/-- Events that mutate the branch reference or replay history:
`git reset --hard`, cherry-picks, rebases, and direct reference moves. -/
def Ev.isMutation : Ev → Bool
  | .reset _ => true
  | .pick _ => true
  | .rebaseRoot => true
  | .rebaseOnto _ _ => true
  | .setRef _ _ => true
  | _ => false

/-- Events that constitute a replay step (cherry-pick or rebase). -/
def Ev.isReplayStep : Ev → Bool
  | .pick _ => true
  | .pickSkip => true
  | .pickAbort => true
  | .rebaseRoot => true
  | .rebaseOnto _ _ => true
  | _ => false

/-- Events that touch the working tree or the checkout: a checkout switch
or a hard reset. -/
def Ev.touchesWorktree : Ev → Bool
  | .checkout _ => true
  | .reset _ => true
  | _ => false

/-- Errors raised by the engine, one per distinct thrown message in the
source. -/
inductive GErr
  | notReachable (c : Nat) (b : String)
  | dirtyState
  | operationInProgress
  | mergeUnsupported
  | crossMergeReorder
  | crossMergeDelete
  | cannotDeleteOnly
  | pickConflict (h : Nat)
  | rebaseFailed
  | checkoutFailed (b : String)
deriving DecidableEq

/-- Association-list update, overwriting an existing binding in place or
appending a new one; models `git update-ref <name> <value>`. -/
def setAssoc (l : List (String × Nat)) (k : String) (v : Nat) : List (String × Nat) :=
  match l with
  | [] => [(k, v)]
  | (k', v') :: rest => if k' = k then (k, v) :: rest else (k', v') :: setAssoc rest k v

/-- Association-list lookup. -/
def lookupA {α β : Type} [DecidableEq α] (l : List (α × β)) (k : α) : Option β :=
  match l with
  | [] => none
  | (k', v) :: rest => if k' = k then some v else lookupA rest k

/-- The commit a branch reference points at (`git rev-parse <branch>`). -/
def branchTip (r : Repo) (b : String) : Nat := (lookupA r.branches b).getD 0

/-- Recorded parents of a commit (`git rev-list --parents -n 1 <hash>`
without the leading hash itself). -/
def parentsOf (r : Repo) (h : Nat) : List Nat :=
  match lookupA r.commits h with
  | some cd => cd.parents
  | none => []

/-- The logical change a commit carries. -/
def changeOf (r : Repo) (h : Nat) : Nat :=
  match lookupA r.commits h with
  | some cd => cd.change
  | none => 0

/-- Fuel-bounded collection of every commit reachable by parent links from
the frontier. -/
def reachable (r : Repo) : Nat → List Nat → List Nat → List Nat
  | 0, acc, _ => acc
  | _ + 1, acc, [] => acc
  | fuel + 1, acc, h :: rest =>
    if h ∈ acc then reachable r fuel acc rest
    else reachable r fuel (h :: acc) (rest ++ parentsOf r h)

/-- Fuel that suffices for any repository this file evaluates. -/
def reachFuel (r : Repo) : Nat := (r.commits.length + 1) * (r.commits.length + 2)

/-- Models `git merge-base --is-ancestor c b`.  The code treats a failing
test command identically to a negative answer (both are caught and turned
into the not-reachable error), so a single boolean suffices. -/
def isAncestor (r : Repo) (c : Nat) (b : String) : Bool :=
  decide (c ∈ reachable r (reachFuel r) [] [branchTip r b])

/-- Models `hasMergesInHistory`: scans the history reachable from the
CURRENT checkout's tip (`git rev-list --parents --reverse HEAD`) for a
commit with more than one parent. -/
def hasMergesInHistory (r : Repo) : Bool :=
  (reachable r (reachFuel r) [] [branchTip r r.head]).any fun h =>
    decide (2 ≤ (parentsOf r h).length)

/-- First-parent walk from `h` (newest first), stopping before `stop`;
models `git rev-list stop..h` on the linear histories the engine targets. -/
def walkTo (r : Repo) (stop : Nat) : Nat → Nat → List Nat
  | 0, _ => []
  | fuel + 1, h =>
    if h = stop then []
    else
      match parentsOf r h with
      | [] => [h]
      | p :: _ => h :: walkTo r stop fuel p

/-- First-parent walk of the full history from `h`, newest first; models
`git rev-list h` on linear history. -/
def walkAll (r : Repo) : Nat → Nat → List Nat
  | 0, _ => []
  | fuel + 1, h =>
    match parentsOf r h with
    | [] => [h]
    | p :: _ => h :: walkAll r fuel p

/-- Models `ensureCleanState`: a dirty working tree or index is fatal, then
any of the four in-progress-rewrite markers is fatal. -/
def cleanCheck (r : Repo) : Option GErr :=
  if r.workDirty || r.idxDirty then some GErr.dirtyState
  else if r.rebaseActive || r.mergeActive || r.cherryActive || r.revertActive then
    some GErr.operationInProgress
  else none

/-- Backup reference name: `refs/backup/git-dnd/<branch>-<timestamp>`. -/
def backupName (b ts : String) : String := "refs/backup/git-dnd/" ++ b ++ "-" ++ ts

/-- Move a branch reference. -/
def setBranch (r : Repo) (b : String) (h : Nat) : Repo :=
  { r with branches := setAssoc r.branches b h }

/-- Effect of a successful `git cherry-pick h` while branch `b` is checked
out: a fresh commit on top of the current tip carrying `h`'s change, and
the branch advanced to it. -/
def applyPick (r : Repo) (b : String) (h : Nat) : Repo :=
  { r with
    commits := (r.nextHash, ⟨[branchTip r b], changeOf r h⟩) :: r.commits
    branches := setAssoc r.branches b r.nextHash
    nextHash := r.nextHash + 1 }

/-- Trace produced for one commit of the replay loop, by outcome. -/
def pickTrace (env : Env) (h : Nat) : List Ev :=
  match env.pick h with
  | PickOutcome.ok => [Ev.pick h]
  | PickOutcome.empty => [Ev.pick h, Ev.pickSkip]
  | PickOutcome.conflict => []

/-- Concatenated replay-loop trace for a sequence of commits. -/
def traceOfPicks (env : Env) (seq : List Nat) : List Ev :=
  seq.foldr (fun h acc => pickTrace env h ++ acc) []

/-- The cherry-pick loop of `makeHead` (extension.ts lines 68-81): a step
whose failure carries the previous-cherry-pick-is-now-empty diagnostic is
skipped via `git cherry-pick --skip` and the loop continues; any other
failure runs `git cherry-pick --abort`, restores the branch reference to
the backup value, and re-raises. -/
def replayLoop (env : Env) (b : String) (bk : Nat) :
    Repo → List Nat → Repo × List Ev × Option GErr
  | r, [] => (r, [], none)
  | r, h :: rest =>
    match env.pick h with
    | PickOutcome.ok =>
      let s := replayLoop env b bk (applyPick r b h) rest
      (s.1, Ev.pick h :: s.2.1, s.2.2)
    | PickOutcome.empty =>
      let s := replayLoop env b bk r rest
      (s.1, Ev.pick h :: Ev.pickSkip :: s.2.1, s.2.2)
    | PickOutcome.conflict =>
      (setBranch r b bk, [Ev.pick h, Ev.pickAbort, Ev.setRef b bk],
        some (GErr.pickConflict h))

/-- Effect of a successful synthesized rebase replaying the changes of `hs`
in order as fresh commits on top of `base` (`none` for a new root). -/
def replayFresh : Repo → String → Option Nat → List Nat → Repo
  | r, _, _, [] => r
  | r, b, base, h :: rest =>
    let newH := r.nextHash
    let ps : List Nat := match base with | some p => [p] | none => []
    replayFresh
      { r with
        commits := (newH, ⟨ps, changeOf r h⟩) :: r.commits
        branches := setAssoc r.branches b newH
        nextHash := newH + 1 } b (some newH) rest

/-- The replay sequence of `makeHead`'s one-parent path: the oldest-to-newest
commits strictly after `parent` up to the branch tip
(`git rev-list --reverse parent..HEAD`), with the target removed and
appended last. -/
def makeHeadSeq (r : Repo) (b : String) (c parent : Nat) : List Nat :=
  ((walkTo r parent (r.commits.length + 1) (branchTip r b)).reverse.filter
    (fun h => h ≠ c)) ++ [c]

/-- Root path of `makeHead` (extension.ts lines 35-59): refuse when the
checkout's history contains a merge, no-op when it has at most one commit,
otherwise drive `git rebase -i --root` with the synthesized reordered todo;
on failure abort the rebase and restore the branch from the backup value. -/
def makeHeadRoot (env : Env) (r : Repo) (b : String) (c : Nat) (bkVal : Nat) :
    Repo × List Ev × Option GErr :=
  if hasMergesInHistory r then (r, [], some GErr.crossMergeReorder)
  else
    let hashes := (walkAll r (r.commits.length + 1) (branchTip r r.head)).reverse
    if hashes.length ≤ 1 then (r, [], none)
    else
      let reordered := hashes.filter (fun h => h ≠ c) ++ [c]
      if env.rebaseOk then (replayFresh r b none reordered, [Ev.rebaseRoot], none)
      else
        (setBranch r b bkVal, [Ev.rebaseRoot, Ev.rebaseAbort, Ev.setRef b bkVal],
          some GErr.rebaseFailed)

/-- Body of `makeHead` after the checkout switch, branching on the target's
parent count (extension.ts lines 33-81): root path, one-parent
reset-and-replay path, or the merge-commit refusal. -/
def makeHeadBody (env : Env) (r : Repo) (b : String) (c : Nat) (bkVal : Nat) :
    Repo × List Ev × Option GErr :=
  match parentsOf r c with
  | [] => makeHeadRoot env r b c bkVal
  | [parent] =>
    let s := replayLoop env b bkVal (setBranch r b parent) (makeHeadSeq r b c parent)
    (s.1, Ev.reset parent :: s.2.1, s.2.2)
  | _ => (r, [], some GErr.mergeUnsupported)

/-- The `makeHead` engine operation (extension.ts lines 18-87): reposition
commit `c` to become branch `b`'s new tip.  Ancestry and clean-state checks
come first, then the backup reference, then the scoped checkout switch.
The restoration of the original checkout in the finally block (line 84) is
awaited with no catch, so when it fails its error replaces any error from
the body — that JS semantics is modelled exactly. -/
def makeHead (env : Env) (r : Repo) (b : String) (c : Nat) :
    Repo × List Ev × Option GErr :=
  if isAncestor r c b then
    match cleanCheck r with
    | some e => (r, [], some e)
    | none =>
      let tip0 := branchTip r b
      let bkName := backupName b env.ts
      let r1 : Repo := { r with backups := setAssoc r.backups bkName tip0 }
      if r1.head = b then
        let s := makeHeadBody env r1 b c tip0
        (s.1, Ev.backup bkName tip0 :: s.2.1, s.2.2)
      else if env.checkoutOk b then
        let orig := r1.head
        let s := makeHeadBody env { r1 with head := b } b c tip0
        let d : Repo × List Ev × Option GErr :=
          if env.checkoutOk orig then
            ({ s.1 with head := orig }, s.2.1 ++ [Ev.checkout orig], s.2.2)
          else (s.1, s.2.1, some (GErr.checkoutFailed orig))
        (d.1, Ev.backup bkName tip0 :: Ev.checkout b :: d.2.1, d.2.2)
      else (r1, [Ev.backup bkName tip0], some (GErr.checkoutFailed b))
  else (r, [], some (GErr.notReachable c b))

/-- Innermost root-deletion body (extension.ts lines 225-245): list the full
history of the checkout; with at most one commit fail with the
cannot-delete-only-commit error; otherwise drive `git rebase -i --root`
with the first pick dropped, restoring from backup on failure. -/
def deleteRootBody (env : Env) (r : Repo) (b : String) (bkVal : Nat) :
    Repo × List Ev × Option GErr :=
  let hashes := (walkAll r (r.commits.length + 1) (branchTip r r.head)).reverse
  if hashes.length ≤ 1 then (r, [], some GErr.cannotDeleteOnly)
  else
    if env.rebaseOk then (replayFresh r b none hashes.tail, [Ev.rebaseRoot], none)
    else
      (setBranch r b bkVal, [Ev.rebaseRoot, Ev.rebaseAbort, Ev.setRef b bkVal],
        some GErr.rebaseFailed)

/-- Root path of `deleteCommit` (extension.ts lines 215-253): the merge scan
runs against the current checkout BEFORE any switch; then a scoped checkout
switch to the branch, the root-deletion body, and a finally block that
checks the current head and restores the original checkout, swallowing a
restore failure (line 250 has a catch, unlike `makeHead`). -/
def deleteRoot (env : Env) (r : Repo) (b : String) (bkVal : Nat) :
    Repo × List Ev × Option GErr :=
  if hasMergesInHistory r then (r, [], some GErr.crossMergeDelete)
  else
    let orig := r.head
    if orig = b then deleteRootBody env r b bkVal
    else if env.checkoutOk b then
      let s := deleteRootBody env { r with head := b } b bkVal
      let s' : Repo × List Ev × Option GErr :=
        if s.1.head = orig then s
        else if env.checkoutOk orig then
          ({ s.1 with head := orig }, s.2.1 ++ [Ev.checkout orig], s.2.2)
        else s
      (s'.1, Ev.checkout b :: s'.2.1, s'.2.2)
    else (r, [], some (GErr.checkoutFailed b))

/-- Body of `deleteCommit` after the backup (extension.ts lines 215-277):
root path, merge-commit refusal, the O(1) fast path when the target is
exactly the tip (hard reset when the branch is checked out, a direct
reference move otherwise), and the general `git rebase --onto parent c [b]`
path for a buried commit (which checks out `b` and, per the source, aborts
without restoring from the backup on failure). -/
def deleteBody (env : Env) (r : Repo) (b : String) (c : Nat) (bkVal : Nat) :
    Repo × List Ev × Option GErr :=
  match parentsOf r c with
  | [] => deleteRoot env r b bkVal
  | [parent] =>
    let tip := branchTip r b
    if tip = c then
      if r.head = b then (setBranch r b parent, [Ev.reset parent], none)
      else (setBranch r b parent, [Ev.setRef b parent], none)
    else
      if env.rebaseOk then
        let after := (walkTo r c (r.commits.length + 1) tip).reverse
        let r' := replayFresh r b (some parent) after
        ({ r' with head := b }, [Ev.rebaseOnto parent c], none)
      else (r, [Ev.rebaseOnto parent c, Ev.rebaseAbort], some GErr.rebaseFailed)
  | _ => (r, [], some GErr.mergeUnsupported)

/-- The `deleteCommit` engine operation (extension.ts lines 201-277): remove
commit `c` from branch `b`'s history.  Ancestry and clean-state checks come
first; the backup reference is created before any branching. -/
def deleteCommit (env : Env) (r : Repo) (b : String) (c : Nat) :
    Repo × List Ev × Option GErr :=
  if isAncestor r c b then
    match cleanCheck r with
    | some e => (r, [], some e)
    | none =>
      let tip0 := branchTip r b
      let bkName := backupName b env.ts
      let r1 : Repo := { r with backups := setAssoc r.backups bkName tip0 }
      let s := deleteBody env r1 b c tip0
      (s.1, Ev.backup bkName tip0 :: s.2.1, s.2.2)
  else (r, [], some (GErr.notReachable c b))

/-- The request size computed by `getCommits` (extension.ts line 317):
`const n = Math.max(1, Math.min(500, limit))`. -/
def getCommitsN (limit : Int) : Int := max 1 (min 500 limit)

/-- `Chain r stop tip chs`: from `tip`, following single parents, the
history down to (but excluding) `stop` exists in `r` and carries exactly
the changes `chs`, newest first. -/
inductive Chain (r : Repo) (stop : Nat) : Nat → List Nat → Prop
  | nil : Chain r stop stop []
  | cons {h p ch rest} :
      lookupA r.commits h = some ⟨[p], ch⟩ →
      Chain r stop p rest →
      Chain r stop h (ch :: rest)

/-- Environment in which every external command succeeds. -/
def envC : Env :=
  { pick := fun _ => PickOutcome.ok
    checkoutOk := fun _ => true
    rebaseOk := true
    ts := "T" }

/-- Environment whose cherry-pick of commit 2 reports the empty diagnostic
and whose cherry-pick of commit 3 conflicts. -/
def envSkip : Env :=
  { pick := fun h =>
      if h = 2 then PickOutcome.empty
      else if h = 3 then PickOutcome.conflict
      else PickOutcome.ok
    checkoutOk := fun _ => true
    rebaseOk := true
    ts := "T" }

/-- Environment in which only checking out "feature" succeeds, so restoring
the original checkout fails. -/
def envMask : Env :=
  { pick := fun _ => PickOutcome.ok
    checkoutOk := fun s => decide (s = "feature")
    rebaseOk := true
    ts := "T" }

/-- Linear four-commit repository A(0) → B(1) → C(2) → D(3) on branch
"feature", which is checked out. -/
def repo4 : Repo :=
  { commits := [(0, ⟨[], 10⟩), (1, ⟨[0], 11⟩), (2, ⟨[1], 12⟩), (3, ⟨[2], 13⟩)]
    branches := [("feature", 3)]
    head := "feature"
    workDirty := false
    idxDirty := false
    rebaseActive := false
    mergeActive := false
    cherryActive := false
    revertActive := false
    backups := []
    nextHash := 4 }

/-- Same repository with a dirty working tree. -/
def repoDirty : Repo := { repo4 with workDirty := true }

/-- Two-commit repository 0 → 1 on branch "b", which is checked out. -/
def repoTip : Repo :=
  { commits := [(0, ⟨[], 10⟩), (1, ⟨[0], 11⟩)]
    branches := [("b", 1)]
    head := "b"
    workDirty := false
    idxDirty := false
    rebaseActive := false
    mergeActive := false
    cherryActive := false
    revertActive := false
    backups := []
    nextHash := 2 }

/-- Two-commit repository 0 → 1 on branch "b" while "main" (at 0) is the
checkout. -/
def repoSide : Repo :=
  { commits := [(0, ⟨[], 10⟩), (1, ⟨[0], 11⟩)]
    branches := [("main", 0), ("b", 1)]
    head := "main"
    workDirty := false
    idxDirty := false
    rebaseActive := false
    mergeActive := false
    cherryActive := false
    revertActive := false
    backups := []
    nextHash := 2 }

/-- Repository whose branch "feature" tip (2) is a merge of 0 and 1, while
"main" (at 0) is the checkout. -/
def repoMerge : Repo :=
  { commits := [(0, ⟨[], 10⟩), (1, ⟨[0], 11⟩), (2, ⟨[0, 1], 12⟩)]
    branches := [("main", 0), ("feature", 2)]
    head := "main"
    workDirty := false
    idxDirty := false
    rebaseActive := false
    mergeActive := false
    cherryActive := false
    revertActive := false
    backups := []
    nextHash := 3 }

/-- Repository with a single root commit on branch "b", checked out. -/
def repoOne : Repo :=
  { commits := [(0, ⟨[], 10⟩)]
    branches := [("b", 0)]
    head := "b"
    workDirty := false
    idxDirty := false
    rebaseActive := false
    mergeActive := false
    cherryActive := false
    revertActive := false
    backups := []
    nextHash := 1 }

/-- Repository where the checkout "main" has a merge (commit 2 merges 0 and
1) while branch "b" consists of the single root commit 3. -/
def repoMixed : Repo :=
  { commits := [(0, ⟨[], 10⟩), (1, ⟨[], 11⟩), (2, ⟨[0, 1], 12⟩), (3, ⟨[], 13⟩)]
    branches := [("main", 2), ("b", 3)]
    head := "main"
    workDirty := false
    idxDirty := false
    rebaseActive := false
    mergeActive := false
    cherryActive := false
    revertActive := false
    backups := []
    nextHash := 4 }

/-! ### Association-list lemmas -/

theorem lookupA_setAssoc_self (l : List (String × Nat)) (k : String) (v : Nat) :
    lookupA (setAssoc l k v) k = some v := by
  induction l with
  | nil => simp [setAssoc, lookupA]
  | cons p rest ih =>
    obtain ⟨k', v'⟩ := p
    by_cases h : k' = k
    · simp [setAssoc, lookupA, h]
    · simp [setAssoc, lookupA, h, ih]

theorem lookupA_setAssoc_ne (l : List (String × Nat)) (k k' : String) (v : Nat)
    (h : k' ≠ k) : lookupA (setAssoc l k v) k' = lookupA l k' := by
  induction l with
  | nil =>
    simp only [setAssoc, lookupA]
    rw [if_neg fun hh => h hh.symm]
  | cons p rest ih =>
    obtain ⟨k0, v0⟩ := p
    by_cases h0 : k0 = k
    · subst h0
      have hne : ¬ k0 = k' := fun hh => h hh.symm
      simp [setAssoc, lookupA, hne]
    · simp only [setAssoc, if_neg h0, lookupA]
      by_cases h1 : k0 = k'
      · simp [h1]
      · simp [h1, ih]

theorem setAssoc_of_lookup_none (l : List (String × Nat)) (k : String) (v : Nat)
    (h : lookupA l k = none) : setAssoc l k v = l ++ [(k, v)] := by
  induction l with
  | nil => simp [setAssoc]
  | cons p rest ih =>
    obtain ⟨k0, v0⟩ := p
    by_cases h0 : k0 = k
    · simp [lookupA, h0] at h
    · simp only [lookupA, if_neg h0] at h
      simp [setAssoc, h0, ih h]

theorem lookupA_append_of_none {α β : Type} [DecidableEq α] (l m : List (α × β)) (k : α)
    (h : lookupA l k = none) : lookupA (l ++ m) k = lookupA m k := by
  induction l with
  | nil => simp
  | cons p rest ih =>
    obtain ⟨k0, v0⟩ := p
    by_cases h0 : k0 = k
    · simp [lookupA, h0] at h
    · simp only [lookupA, if_neg h0] at h
      simp [lookupA, if_neg h0, ih h]

theorem lookupA_mem {α β : Type} [DecidableEq α] {l : List (α × β)} {k : α} {v : β}
    (h : lookupA l k = some v) : (k, v) ∈ l := by
  induction l with
  | nil => simp [lookupA] at h
  | cons p rest ih =>
    obtain ⟨k0, v0⟩ := p
    by_cases h0 : k0 = k
    · subst h0
      have hv : v0 = v := by simpa [lookupA] using h
      subst hv
      exact List.mem_cons_self _ _
    · simp only [lookupA, if_neg h0] at h
      exact List.mem_cons_of_mem _ (ih h)

theorem lt_of_lookup_isSome {r : Repo} {h : Nat} (hWF : Repo.WF r)
    (hs : (lookupA r.commits h).isSome) : h < r.nextHash := by
  obtain ⟨v, hv⟩ := Option.isSome_iff_exists.mp hs
  exact hWF _ (lookupA_mem hv)

/-! ### Congruence lemmas: the git queries depend only on the fields they read -/

theorem parentsOf_congr {r r' : Repo} (hc : r.commits = r'.commits) (h : Nat) :
    parentsOf r h = parentsOf r' h := by
  simp [parentsOf, hc]

theorem changeOf_congr {r r' : Repo} (hc : r.commits = r'.commits) (h : Nat) :
    changeOf r h = changeOf r' h := by
  simp [changeOf, hc]

theorem branchTip_congr {r r' : Repo} (hb : r.branches = r'.branches) (b : String) :
    branchTip r b = branchTip r' b := by
  simp [branchTip, hb]

theorem walkTo_congr {r r' : Repo} (hc : r.commits = r'.commits) (stop : Nat) :
    ∀ fuel h, walkTo r stop fuel h = walkTo r' stop fuel h := by
  intro fuel
  induction fuel with
  | zero => intro h; rfl
  | succ f ih =>
    intro h
    simp only [walkTo, parentsOf_congr hc h]
    by_cases hs : h = stop
    · simp [hs]
    · simp only [if_neg hs]
      cases parentsOf r' h with
      | nil => rfl
      | cons p ps => simp [ih p]

theorem walkAll_congr {r r' : Repo} (hc : r.commits = r'.commits) :
    ∀ fuel h, walkAll r fuel h = walkAll r' fuel h := by
  intro fuel
  induction fuel with
  | zero => intro h; rfl
  | succ f ih =>
    intro h
    simp only [walkAll, parentsOf_congr hc h]
    cases parentsOf r' h with
    | nil => rfl
    | cons p ps => simp [ih p]

theorem reachable_congr {r r' : Repo} (hc : r.commits = r'.commits) :
    ∀ fuel acc frontier, reachable r fuel acc frontier = reachable r' fuel acc frontier := by
  intro fuel
  induction fuel with
  | zero => intro acc frontier; rfl
  | succ f ih =>
    intro acc frontier
    cases frontier with
    | nil => rfl
    | cons h rest =>
      simp only [reachable, parentsOf_congr hc h]
      by_cases hm : h ∈ acc
      · simp [hm, ih]
      · simp [hm, ih]

theorem hasMerges_congr {r r' : Repo} (hc : r.commits = r'.commits)
    (hb : r.branches = r'.branches) (hh : r.head = r'.head) :
    hasMergesInHistory r = hasMergesInHistory r' := by
  have hl : r.commits.length = r'.commits.length := by rw [hc]
  have hf : (fun x => decide (2 ≤ (parentsOf r x).length)) =
      (fun x => decide (2 ≤ (parentsOf r' x).length)) := by
    funext x
    simp [parentsOf_congr hc]
  simp only [hasMergesInHistory, reachFuel, hl, hh, branchTip_congr hb,
    reachable_congr hc, hf]

theorem makeHeadSeq_congr {r r' : Repo} (hc : r.commits = r'.commits)
    (hb : r.branches = r'.branches) (b : String) (c parent : Nat) :
    makeHeadSeq r b c parent = makeHeadSeq r' b c parent := by
  have hl : r.commits.length = r'.commits.length := by rw [hc]
  simp [makeHeadSeq, hl, branchTip_congr hb, walkTo_congr hc]

/-! ### Chain lemmas -/

theorem chain_append {r : Repo} {mid tip stop : Nat} {l1 l2 : List Nat}
    (h1 : Chain r mid tip l1) (h2 : Chain r stop mid l2) :
    Chain r stop tip (l1 ++ l2) := by
  induction h1 with
  | nil => simpa using h2
  | cons hlk _ ih => exact Chain.cons hlk ih

theorem chain_congr {r r' : Repo} (hc : r.commits = r'.commits) {stop tip : Nat}
    {l : List Nat} (h : Chain r stop tip l) : Chain r' stop tip l := by
  induction h with
  | nil => exact Chain.nil
  | cons hlk _ ih => exact Chain.cons (hc ▸ hlk) ih

/-! ### The mutation phases never touch the backup references -/

theorem replayLoop_backups (env : Env) (b : String) (bk : Nat) :
    ∀ (seq : List Nat) (r : Repo), ((replayLoop env b bk r seq).1).backups = r.backups := by
  intro seq
  induction seq with
  | nil => intro r; rfl
  | cons h rest ih =>
    intro r
    simp only [replayLoop]
    cases env.pick h with
    | ok => simpa [applyPick] using ih (applyPick r b h)
    | empty => simpa using ih r
    | conflict => rfl

theorem replayFresh_backups :
    ∀ (hs : List Nat) (r : Repo) (b : String) (base : Option Nat),
      (replayFresh r b base hs).backups = r.backups := by
  intro hs
  induction hs with
  | nil => intro r b base; rfl
  | cons h rest ih =>
    intro r b base
    simp only [replayFresh]
    exact ih _ b _

theorem makeHeadRoot_backups (env : Env) (r : Repo) (b : String) (c bkVal : Nat) :
    ((makeHeadRoot env r b c bkVal).1).backups = r.backups := by
  simp only [makeHeadRoot]
  split_ifs <;> simp [replayFresh_backups, setBranch]

theorem makeHeadBody_backups (env : Env) (r : Repo) (b : String) (c bkVal : Nat) :
    ((makeHeadBody env r b c bkVal).1).backups = r.backups := by
  simp only [makeHeadBody]
  rcases hp : parentsOf r c with _ | ⟨p, _ | ⟨q, ps⟩⟩
  · exact makeHeadRoot_backups env r b c bkVal
  · simpa using replayLoop_backups env b bkVal _ (setBranch r b p)
  · rfl

theorem deleteRootBody_backups (env : Env) (r : Repo) (b : String) (bkVal : Nat) :
    ((deleteRootBody env r b bkVal).1).backups = r.backups := by
  simp only [deleteRootBody]
  split_ifs <;> simp [replayFresh_backups, setBranch]

theorem deleteRoot_backups (env : Env) (r : Repo) (b : String) (bkVal : Nat) :
    ((deleteRoot env r b bkVal).1).backups = r.backups := by
  simp only [deleteRoot]
  by_cases h1 : hasMergesInHistory r = true
  · simp [h1]
  · simp only [if_neg h1]
    by_cases h2 : r.head = b
    · simp only [if_pos h2]
      exact deleteRootBody_backups env r b bkVal
    · simp only [if_neg h2]
      by_cases h3 : env.checkoutOk b = true
      · simp only [if_pos h3]
        have hb := deleteRootBody_backups env { r with head := b } b bkVal
        by_cases h4 : (deleteRootBody env { r with head := b } b bkVal).1.head = r.head
        · simp only [if_pos h4]
          exact hb
        · simp only [if_neg h4]
          by_cases h5 : env.checkoutOk r.head = true
          · simp only [if_pos h5]
            simpa using hb
          · simp only [if_neg h5]
            exact hb
      · simp [h3]

theorem deleteBody_backups (env : Env) (r : Repo) (b : String) (c bkVal : Nat) :
    ((deleteBody env r b c bkVal).1).backups = r.backups := by
  simp only [deleteBody]
  rcases hp : parentsOf r c with _ | ⟨p, _ | ⟨q, ps⟩⟩
  · exact deleteRoot_backups env r b bkVal
  · split_ifs <;> simp [setBranch, replayFresh_backups]
  · rfl

theorem makeHead_backups (env : Env) (r : Repo) (b : String) (c : Nat) :
    ((makeHead env r b c).1).backups = r.backups ∨
      ((makeHead env r b c).1).backups =
        setAssoc r.backups (backupName b env.ts) (branchTip r b) := by
  by_cases h1 : isAncestor r c b = true
  · cases hcc : cleanCheck r with
    | some e => simp [makeHead, h1, hcc]
    | none =>
      refine Or.inr ?_
      simp only [makeHead, if_pos h1, hcc]
      by_cases h2 : r.head = b
      · rw [if_pos h2]
        exact makeHeadBody_backups env _ b c _
      · rw [if_neg h2]
        by_cases h3 : env.checkoutOk b = true
        · rw [if_pos h3]
          by_cases h4 : env.checkoutOk r.head = true
          · rw [if_pos h4]
            exact makeHeadBody_backups env _ b c _
          · rw [if_neg h4]
            exact makeHeadBody_backups env _ b c _
        · rw [if_neg h3]
  · simp [makeHead, h1]

theorem deleteCommit_backups (env : Env) (r : Repo) (b : String) (c : Nat) :
    ((deleteCommit env r b c).1).backups = r.backups ∨
      ((deleteCommit env r b c).1).backups =
        setAssoc r.backups (backupName b env.ts) (branchTip r b) := by
  by_cases h1 : isAncestor r c b = true
  · cases hcc : cleanCheck r with
    | some e => simp [deleteCommit, h1, hcc]
    | none =>
      refine Or.inr ?_
      simp only [deleteCommit, if_pos h1, hcc]
      exact deleteBody_backups env _ b c _
  · simp [deleteCommit, h1]

/-! ### The replay loop under all-successful picks -/

theorem applyPick_lookup_lt {r : Repo} {k : Nat} (b : String) (h : Nat)
    (hk : k < r.nextHash) :
    lookupA (applyPick r b h).commits k = lookupA r.commits k := by
  simp only [applyPick, lookupA]
  rw [if_neg (by omega : ¬ r.nextHash = k)]

theorem applyPick_WF {r : Repo} (b : String) (h : Nat) (hWF : Repo.WF r) :
    Repo.WF (applyPick r b h) := by
  intro p hp
  simp only [applyPick, List.mem_cons] at hp
  rcases hp with hp | hp
  · subst hp
    simp [applyPick]
  · have := hWF p hp
    simp only [applyPick]
    omega

theorem branchTip_applyPick (r : Repo) (b : String) (h : Nat) :
    branchTip (applyPick r b h) b = r.nextHash := by
  simp [branchTip, applyPick, lookupA_setAssoc_self]

theorem branchTip_setBranch (r : Repo) (b : String) (v : Nat) :
    branchTip (setBranch r b v) b = v := by
  simp [branchTip, setBranch, lookupA_setAssoc_self]

theorem applyPick_lookup_new (r : Repo) (b : String) (h : Nat) :
    lookupA (applyPick r b h).commits r.nextHash =
      some ⟨[branchTip r b], changeOf r h⟩ := by
  simp [applyPick, lookupA]

theorem changeOf_applyPick_lt {r : Repo} {k : Nat} (b : String) (h : Nat)
    (hk : k < r.nextHash) : changeOf (applyPick r b h) k = changeOf r k := by
  simp [changeOf, applyPick_lookup_lt b h hk]

theorem replayLoop_all_ok (env : Env) (b : String) (bk : Nat) :
    ∀ (seq : List Nat) (r : Repo), Repo.WF r →
    (∀ h ∈ seq, env.pick h = PickOutcome.ok) →
    (∀ h ∈ seq, h < r.nextHash) →
    ∃ r' : Repo,
      replayLoop env b bk r seq = (r', seq.map Ev.pick, none) ∧
      Repo.WF r' ∧
      r.nextHash ≤ r'.nextHash ∧
      (∀ k, k < r.nextHash → lookupA r'.commits k = lookupA r.commits k) ∧
      r'.head = r.head ∧ r'.backups = r.backups ∧
      Chain r' (branchTip r b) (branchTip r' b) ((seq.map (changeOf r)).reverse) := by
  intro seq
  induction seq with
  | nil =>
    intro r hWF hok hlt
    exact ⟨r, rfl, hWF, le_refl _, fun k _ => rfl, rfl, rfl, by simpa using Chain.nil⟩
  | cons h rest ih =>
    intro r hWF hok hlt
    have hpick : env.pick h = PickOutcome.ok := hok h (List.mem_cons_self h rest)
    have hWF1 : Repo.WF (applyPick r b h) := applyPick_WF b h hWF
    have hlt1 : ∀ g ∈ rest, g < (applyPick r b h).nextHash := by
      intro g hg
      have := hlt g (List.mem_cons_of_mem h hg)
      simp only [applyPick]
      omega
    obtain ⟨r', heq, hWF', hle, hpres, hhead, hbak, hchain⟩ :=
      ih (applyPick r b h) hWF1 (fun g hg => hok g (List.mem_cons_of_mem h hg)) hlt1
    have hlen : r.nextHash < (applyPick r b h).nextHash := by
      simp [applyPick]
    refine ⟨r', ?_, hWF', by omega, ?_, ?_, ?_, ?_⟩
    · simp [replayLoop, hpick, heq]
    · intro k hk
      rw [hpres k (by omega), applyPick_lookup_lt b h hk]
    · simpa [applyPick] using hhead
    · simpa [applyPick] using hbak
    · have hmapr : rest.map (changeOf (applyPick r b h)) = rest.map (changeOf r) := by
        apply List.map_congr_left
        intro g hg
        exact changeOf_applyPick_lt b h (hlt g (List.mem_cons_of_mem h hg))
      have hone : Chain r' (branchTip r b) (branchTip (applyPick r b h) b)
          [changeOf r h] := by
        rw [branchTip_applyPick]
        refine Chain.cons ?_ Chain.nil
        rw [hpres r.nextHash hlen, applyPick_lookup_new]
      have := chain_append (hmapr ▸ hchain) hone
      simpa using this

/-! ### The one-parent path of makeHead -/

theorem changeOf_setBranch (r : Repo) (b : String) (v : Nat) :
    changeOf (setBranch r b v) = changeOf r := rfl

theorem makeHeadBody_one_parent (env : Env) (r : Repo) (b : String) (c parent bkVal : Nat)
    (hWF : Repo.WF r)
    (hpar : parentsOf r c = [parent])
    (hok : ∀ h ∈ makeHeadSeq r b c parent, env.pick h = PickOutcome.ok)
    (hmem : ∀ h ∈ makeHeadSeq r b c parent, (lookupA r.commits h).isSome) :
    ∃ r', makeHeadBody env r b c bkVal =
        (r', Ev.reset parent :: (makeHeadSeq r b c parent).map Ev.pick, none) ∧
      r'.head = r.head ∧ r'.backups = r.backups ∧
      Chain r' parent (branchTip r' b)
        (((makeHeadSeq r b c parent).map (changeOf r)).reverse) ∧
      changeOf r' (branchTip r' b) = changeOf r c := by
  have hlt : ∀ h ∈ makeHeadSeq r b c parent, h < (setBranch r b parent).nextHash :=
    fun h hh => lt_of_lookup_isSome hWF (hmem h hh)
  obtain ⟨r', heq, hWF', hle, hpres, hhead, hbak, hchain⟩ :=
    replayLoop_all_ok env b bkVal (makeHeadSeq r b c parent) (setBranch r b parent)
      hWF hok hlt
  rw [branchTip_setBranch, changeOf_setBranch] at hchain
  have hrev : (((makeHeadSeq r b c parent).map (changeOf r)).reverse) =
      changeOf r c ::
        ((((walkTo r parent (r.commits.length + 1) (branchTip r b)).reverse.filter
          (fun h => h ≠ c)).map (changeOf r)).reverse) := by
    simp [makeHeadSeq]
  have hcopy := hchain
  rw [hrev] at hcopy
  refine ⟨r', ?_, hhead, hbak, hchain, ?_⟩
  · simp [makeHeadBody, hpar, heq]
  · cases hcopy with
    | cons hlk hrest => simp [changeOf, hlk]

/-! ### Claim theorems -/

/-- C1: for every branch `b` and target commit `c` reachable from `b` with
exactly one parent `parent`, when the preconditions hold and every replay
succeeds, `makeHead` computes the oldest-to-newest range strictly after
`parent`, builds the replay sequence as that range with `c` removed and `c`
appended last (`makeHeadSeq`), hard-resets the branch to `parent`, and
replays the sequence in order; afterwards the branch history above `parent`
carries exactly the sequence's changes in order and the new tip's content
equals `c`'s. -/
theorem makeHead_one_parent_replays (env : Env) (r : Repo) (b : String) (c parent : Nat)
    (hWF : Repo.WF r)
    (hanc : isAncestor r c b = true)
    (hclean : cleanCheck r = none)
    (hpar : parentsOf r c = [parent])
    (hcb : env.checkoutOk b = true)
    (hch : env.checkoutOk r.head = true)
    (hok : ∀ h ∈ makeHeadSeq r b c parent, env.pick h = PickOutcome.ok)
    (hmem : ∀ h ∈ makeHeadSeq r b c parent, (lookupA r.commits h).isSome) :
    ∃ (r' : Repo) (pre post : List Ev),
      makeHead env r b c =
        (r', pre ++ (Ev.reset parent :: (makeHeadSeq r b c parent).map Ev.pick) ++ post,
          none) ∧
      Chain r' parent (branchTip r' b)
        (((makeHeadSeq r b c parent).map (changeOf r)).reverse) ∧
      changeOf r' (branchTip r' b) = changeOf r c := by
  by_cases hh : r.head = b
  · have hseqeq : makeHeadSeq { r with backups := setAssoc r.backups (backupName b env.ts) (branchTip r b) } b c parent = makeHeadSeq r b c parent := by
      apply makeHeadSeq_congr <;> rfl
    have hok1 : ∀ h ∈ makeHeadSeq { r with backups := setAssoc r.backups (backupName b env.ts) (branchTip r b) } b c parent, env.pick h = PickOutcome.ok := by
      rw [hseqeq]; exact hok
    have hmem1 : ∀ h ∈ makeHeadSeq { r with backups := setAssoc r.backups (backupName b env.ts) (branchTip r b) } b c parent, (lookupA r.commits h).isSome := by
      rw [hseqeq]; exact hmem
    obtain ⟨r', heq, hhead, hbak, hchain, htip⟩ :=
      makeHeadBody_one_parent env { r with backups := setAssoc r.backups (backupName b env.ts) (branchTip r b) } b c parent (branchTip r b) hWF hpar hok1 hmem1
    rw [hseqeq] at heq hchain
    rw [hh] at heq
    refine ⟨r', [Ev.backup (backupName b env.ts) (branchTip r b)], [], ?_, hchain, htip⟩
    simp [makeHead, hanc, hclean, hh, heq]
  · have hseqeq : makeHeadSeq { r with head := b, backups := setAssoc r.backups (backupName b env.ts) (branchTip r b) } b c parent = makeHeadSeq r b c parent := by
      apply makeHeadSeq_congr <;> rfl
    have hok1 : ∀ h ∈ makeHeadSeq { r with head := b, backups := setAssoc r.backups (backupName b env.ts) (branchTip r b) } b c parent, env.pick h = PickOutcome.ok := by
      rw [hseqeq]; exact hok
    have hmem1 : ∀ h ∈ makeHeadSeq { r with head := b, backups := setAssoc r.backups (backupName b env.ts) (branchTip r b) } b c parent, (lookupA r.commits h).isSome := by
      rw [hseqeq]; exact hmem
    obtain ⟨r', heq, hhead, hbak, hchain, htip⟩ :=
      makeHeadBody_one_parent env { r with head := b, backups := setAssoc r.backups (backupName b env.ts) (branchTip r b) } b c parent (branchTip r b) hWF hpar hok1 hmem1
    rw [hseqeq] at heq hchain
    refine ⟨{ r' with head := r.head },
      [Ev.backup (backupName b env.ts) (branchTip r b), Ev.checkout b],
      [Ev.checkout r.head], ?_, ?_, ?_⟩
    · simp [makeHead, hanc, hclean, hh, hcb, hch, heq]
    · refine chain_congr ?_ hchain
      rfl
    · exact htip

/-- Witness for C1 on the spec's scenario: branch "feature" is
A(0) → B(1) → C(2) → D(3); repositioning B resets to A, replays the
sequence [C, D, B], and the new tip's content equals B's. -/
theorem makeHead_one_parent_replays_witness :
    (Repo.WF repo4 ∧ isAncestor repo4 1 "feature" = true ∧ cleanCheck repo4 = none ∧
      parentsOf repo4 1 = [0] ∧
      (∀ h ∈ makeHeadSeq repo4 "feature" 1 0, envC.pick h = PickOutcome.ok)) ∧
    (∃ (r' : Repo) (pre post : List Ev),
      makeHead envC repo4 "feature" 1 =
        (r', pre ++ (Ev.reset 0 :: (makeHeadSeq repo4 "feature" 1 0).map Ev.pick) ++ post,
          none) ∧
      Chain r' 0 (branchTip r' "feature")
        (((makeHeadSeq repo4 "feature" 1 0).map (changeOf repo4)).reverse) ∧
      changeOf r' (branchTip r' "feature") = changeOf repo4 1) :=
  ⟨⟨by unfold Repo.WF; decide, by decide, by decide, by decide, by decide⟩,
    makeHead_one_parent_replays envC repo4 "feature" 1 0 (by unfold Repo.WF; decide)
      (by decide) (by decide) (by decide) (by decide) (by decide) (by decide) (by decide)⟩

theorem cleanCheck_eq_none (r : Repo) :
    cleanCheck r = none ↔
      (r.workDirty = false ∧ r.idxDirty = false ∧ r.rebaseActive = false ∧
        r.mergeActive = false ∧ r.cherryActive = false ∧ r.revertActive = false) := by
  cases hw : r.workDirty <;> cases hi : r.idxDirty <;> cases h1 : r.rebaseActive <;>
    cases h2 : r.mergeActive <;> cases h3 : r.cherryActive <;> cases h4 : r.revertActive <;>
    simp [cleanCheck, hw, hi, h1, h2, h3, h4]

/-- C2: when the target commit `c` has exactly one parent and is exactly the
tip of branch `b`, `deleteCommit` performs no replay step: after the backup
it issues a single hard reset when `b` is the active checkout and a single
direct reference move otherwise, and the new tip equals the parent. -/
theorem deleteCommit_tip_fast (env : Env) (r : Repo) (b : String) (c parent ch : Nat)
    (hanc : isAncestor r c b = true)
    (hclean : cleanCheck r = none)
    (hlk : lookupA r.commits c = some ⟨[parent], ch⟩)
    (htip : branchTip r b = c) :
    ∃ r', deleteCommit env r b c =
        (r', [Ev.backup (backupName b env.ts) c,
          if r.head = b then Ev.reset parent else Ev.setRef b parent], none) ∧
      branchTip r' b = parent ∧
      (∀ ev ∈ (deleteCommit env r b c).2.1, ev.isReplayStep = false) := by
  have htip' : (lookupA r.branches b).getD 0 = c := htip
  have hmain : deleteCommit env r b c =
      (setBranch { r with backups := setAssoc r.backups (backupName b env.ts) c } b parent,
        [Ev.backup (backupName b env.ts) c,
          if r.head = b then Ev.reset parent else Ev.setRef b parent], none) := by
    by_cases hh : r.head = b
    · simp [deleteCommit, hanc, hclean, deleteBody, parentsOf, branchTip, hlk, htip', hh]
    · simp [deleteCommit, hanc, hclean, deleteBody, parentsOf, branchTip, hlk, htip', hh]
  refine ⟨_, hmain, branchTip_setBranch _ b parent, ?_⟩
  intro ev hev
  rw [hmain] at hev
  simp only [List.mem_cons, List.not_mem_nil, or_false] at hev
  rcases hev with h | h
  · subst h; rfl
  · subst h
    by_cases hh : r.head = b <;> simp [hh, Ev.isReplayStep]

/-- Witness for C2: removing the tip commit 1 of branch "b" (checked out)
hard-resets to its parent 0 with no replay step. -/
theorem deleteCommit_tip_fast_witness :
    (isAncestor repoTip 1 "b" = true ∧ cleanCheck repoTip = none ∧
      lookupA repoTip.commits 1 = some ⟨[0], 11⟩ ∧ branchTip repoTip "b" = 1) ∧
    (∃ r', deleteCommit envC repoTip "b" 1 =
        (r', [Ev.backup (backupName "b" envC.ts) 1,
          if repoTip.head = "b" then Ev.reset 0 else Ev.setRef "b" 0], none) ∧
      branchTip r' "b" = 0 ∧
      (∀ ev ∈ (deleteCommit envC repoTip "b" 1).2.1, ev.isReplayStep = false)) :=
  ⟨⟨by decide, by decide, by decide, by decide⟩,
    deleteCommit_tip_fast envC repoTip "b" 1 0 11 (by decide) (by decide) (by decide)
      (by decide)⟩

/-- C10: removing the tip commit of a branch that is NOT the active checkout
updates only that branch's reference: the checkout, the working tree and
index state, the commit map, and every other branch are untouched, and the
trace contains no checkout switch and no hard reset. -/
theorem deleteCommit_side_frame (env : Env) (r : Repo) (b : String) (c parent ch : Nat)
    (hanc : isAncestor r c b = true)
    (hclean : cleanCheck r = none)
    (hlk : lookupA r.commits c = some ⟨[parent], ch⟩)
    (htip : branchTip r b = c)
    (hh : r.head ≠ b) :
    ∃ r', deleteCommit env r b c =
        (r', [Ev.backup (backupName b env.ts) c, Ev.setRef b parent], none) ∧
      r'.head = r.head ∧ r'.commits = r.commits ∧
      r'.workDirty = r.workDirty ∧ r'.idxDirty = r.idxDirty ∧
      lookupA r'.branches b = some parent ∧
      (∀ b', b' ≠ b → lookupA r'.branches b' = lookupA r.branches b') ∧
      (∀ ev ∈ (deleteCommit env r b c).2.1, ev.touchesWorktree = false) := by
  have htip' : (lookupA r.branches b).getD 0 = c := htip
  have hmain : deleteCommit env r b c =
      (setBranch { r with backups := setAssoc r.backups (backupName b env.ts) c } b parent,
        [Ev.backup (backupName b env.ts) c, Ev.setRef b parent], none) := by
    simp [deleteCommit, hanc, hclean, deleteBody, parentsOf, branchTip, hlk, htip', hh]
  refine ⟨_, hmain, rfl, rfl, rfl, rfl, lookupA_setAssoc_self _ b parent, ?_, ?_⟩
  · intro b' hb'
    exact lookupA_setAssoc_ne _ b b' parent hb'
  · intro ev hev
    rw [hmain] at hev
    simp only [List.mem_cons, List.not_mem_nil, or_false] at hev
    rcases hev with h | h <;> subst h <;> rfl

/-- Witness for C10: removing the tip of side branch "b" while "main" is
checked out moves only the "b" reference. -/
theorem deleteCommit_side_frame_witness :
    (isAncestor repoSide 1 "b" = true ∧ cleanCheck repoSide = none ∧
      lookupA repoSide.commits 1 = some ⟨[0], 11⟩ ∧ branchTip repoSide "b" = 1 ∧
      repoSide.head ≠ "b") ∧
    (∃ r', deleteCommit envC repoSide "b" 1 =
        (r', [Ev.backup (backupName "b" envC.ts) 1, Ev.setRef "b" 0], none) ∧
      r'.head = repoSide.head ∧ r'.commits = repoSide.commits ∧
      r'.workDirty = repoSide.workDirty ∧ r'.idxDirty = repoSide.idxDirty ∧
      lookupA r'.branches "b" = some 0 ∧
      (∀ b', b' ≠ "b" → lookupA r'.branches b' = lookupA repoSide.branches b') ∧
      (∀ ev ∈ (deleteCommit envC repoSide "b" 1).2.1, ev.touchesWorktree = false)) :=
  ⟨⟨by decide, by decide, by decide, by decide, by decide⟩,
    deleteCommit_side_frame envC repoSide "b" 1 0 11 (by decide) (by decide) (by decide)
      (by decide) (by decide)⟩

/-- C4: when the ancestry check fails (a negative answer or a failing test
command, which the code treats identically) or the precondition check fails
(dirty working tree or index, or an in-progress rebase/merge/cherry-pick/
revert), both `makeHead` and `deleteCommit` fail with no side effect at all:
the repository is returned unchanged (so no backup reference was created and
the branch reference is untouched) and the command trace is empty (so no
checkout switch occurred). -/
theorem ops_fail_before_side_effects (env : Env) (r : Repo) (b : String) (c : Nat)
    (h : isAncestor r c b = false ∨ r.workDirty = true ∨ r.idxDirty = true ∨
      r.rebaseActive = true ∨ r.mergeActive = true ∨ r.cherryActive = true ∨
      r.revertActive = true) :
    (∃ e, makeHead env r b c = (r, [], some e)) ∧
    (∃ e, deleteCommit env r b c = (r, [], some e)) := by
  by_cases hanc : isAncestor r c b = true
  · cases hcl : cleanCheck r with
    | some e0 =>
      exact ⟨⟨e0, by simp [makeHead, hanc, hcl]⟩, ⟨e0, by simp [deleteCommit, hanc, hcl]⟩⟩
    | none =>
      exfalso
      rw [cleanCheck_eq_none] at hcl
      obtain ⟨h1, h2, h3, h4, h5, h6⟩ := hcl
      rcases h with h | h | h | h | h | h | h
      · rw [hanc] at h; cases h
      · rw [h1] at h; cases h
      · rw [h2] at h; cases h
      · rw [h3] at h; cases h
      · rw [h4] at h; cases h
      · rw [h5] at h; cases h
      · rw [h6] at h; cases h
  · have hanc' : isAncestor r c b = false := by
      cases hb : isAncestor r c b
      · rfl
      · exact absurd hb hanc
    exact ⟨⟨GErr.notReachable c b, by simp [makeHead, hanc']⟩,
      ⟨GErr.notReachable c b, by simp [deleteCommit, hanc']⟩⟩

/-- Witness for C4: with a dirty working tree both operations return the
repository unchanged with an empty trace. -/
theorem ops_fail_before_side_effects_witness :
    (isAncestor repoDirty 1 "feature" = false ∨ repoDirty.workDirty = true ∨
      repoDirty.idxDirty = true ∨ repoDirty.rebaseActive = true ∨
      repoDirty.mergeActive = true ∨ repoDirty.cherryActive = true ∨
      repoDirty.revertActive = true) ∧
    ((∃ e, makeHead envC repoDirty "feature" 1 = (repoDirty, [], some e)) ∧
      (∃ e, deleteCommit envC repoDirty "feature" 1 = (repoDirty, [], some e))) :=
  ⟨by right; left; decide,
    ops_fail_before_side_effects envC repoDirty "feature" 1 (by right; left; decide)⟩

/-- C6: repositioning a commit with two or more recorded parents always
fails with the merge-commit-unsupported error, leaves the branch reference
exactly as it was, and attempts no reset, replay, rebase, or reference
move. -/
theorem makeHead_merge_commit_unmutated (env : Env) (r : Repo) (b : String)
    (c p q ch : Nat) (ps : List Nat)
    (hanc : isAncestor r c b = true)
    (hclean : cleanCheck r = none)
    (hlk : lookupA r.commits c = some ⟨p :: q :: ps, ch⟩)
    (hcb : env.checkoutOk b = true)
    (hch : env.checkoutOk r.head = true) :
    ∃ r' t, makeHead env r b c = (r', t, some GErr.mergeUnsupported) ∧
      lookupA r'.branches b = lookupA r.branches b ∧
      (∀ ev ∈ t, ev.isMutation = false) := by
  by_cases hh : r.head = b
  · refine ⟨{ r with backups := setAssoc r.backups (backupName b env.ts) (branchTip r b) },
      [Ev.backup (backupName b env.ts) (branchTip r b)], ?_, rfl, ?_⟩
    · simp [makeHead, hanc, hclean, hh, makeHeadBody, parentsOf, hlk]
    · intro ev hev
      simp only [List.mem_cons, List.not_mem_nil, or_false] at hev
      subst hev; rfl
  · refine ⟨{ r with backups := setAssoc r.backups (backupName b env.ts) (branchTip r b) },
      [Ev.backup (backupName b env.ts) (branchTip r b), Ev.checkout b,
        Ev.checkout r.head], ?_, rfl, ?_⟩
    · simp [makeHead, hanc, hclean, hh, hcb, hch, makeHeadBody, parentsOf, hlk]
    · intro ev hev
      simp only [List.mem_cons, List.not_mem_nil, or_false] at hev
      rcases hev with h | h | h <;> subst h <;> rfl

/-- Witness for C6: repositioning the merge commit 2 of branch "feature"
fails with the merge-commit-unsupported error and leaves the reference at
2. -/
theorem makeHead_merge_commit_unmutated_witness :
    (isAncestor repoMerge 2 "feature" = true ∧ cleanCheck repoMerge = none ∧
      lookupA repoMerge.commits 2 = some ⟨[0, 1], 12⟩) ∧
    (∃ r' t, makeHead envC repoMerge "feature" 2 = (r', t, some GErr.mergeUnsupported) ∧
      lookupA r'.branches "feature" = lookupA repoMerge.branches "feature" ∧
      (∀ ev ∈ t, ev.isMutation = false)) :=
  ⟨⟨by decide, by decide, by decide⟩,
    makeHead_merge_commit_unmutated envC repoMerge "feature" 2 0 1 12 [] (by decide)
      (by decide) (by decide) (by decide) (by decide)⟩

theorem replayLoop_no_conflict_aux (env : Env) (b : String) (bk : Nat) :
    ∀ (seq : List Nat) (r : Repo),
    (∀ h ∈ seq, env.pick h ≠ PickOutcome.conflict) →
    ∃ r', replayLoop env b bk r seq = (r', traceOfPicks env seq, none) := by
  intro seq
  induction seq with
  | nil => intro r _; exact ⟨r, rfl⟩
  | cons h rest ih =>
    intro r hnc
    have hrest : ∀ g ∈ rest, env.pick g ≠ PickOutcome.conflict :=
      fun g hg => hnc g (List.mem_cons_of_mem h hg)
    cases hp : env.pick h with
    | ok =>
      obtain ⟨r', heq⟩ := ih (applyPick r b h) hrest
      exact ⟨r', by simp [replayLoop, hp, heq, traceOfPicks, pickTrace]⟩
    | empty =>
      obtain ⟨r', heq⟩ := ih r hrest
      exact ⟨r', by simp [replayLoop, hp, heq, traceOfPicks, pickTrace]⟩
    | conflict => exact absurd hp (hnc h (List.mem_cons_self h rest))

theorem replayLoop_conflict_aux (env : Env) (b : String) (bk : Nat) (h : Nat)
    (hc : env.pick h = PickOutcome.conflict) :
    ∀ (pre : List Nat), (∀ g ∈ pre, env.pick g ≠ PickOutcome.conflict) →
    ∀ (r : Repo) (rest : List Nat),
    ∃ r', replayLoop env b bk r (pre ++ h :: rest) =
        (r', traceOfPicks env pre ++ [Ev.pick h, Ev.pickAbort, Ev.setRef b bk],
          some (GErr.pickConflict h)) ∧
      branchTip r' b = bk := by
  intro pre
  induction pre with
  | nil =>
    intro _ r rest
    refine ⟨setBranch r b bk, ?_, branchTip_setBranch r b bk⟩
    simp [replayLoop, hc, traceOfPicks]
  | cons g pre ih =>
    intro hnc r rest
    have hpre : ∀ g' ∈ pre, env.pick g' ≠ PickOutcome.conflict :=
      fun g' hg => hnc g' (List.mem_cons_of_mem g hg)
    cases hp : env.pick g with
    | ok =>
      obtain ⟨r', heq, htipb⟩ := ih hpre (applyPick r b g) rest
      exact ⟨r', by simp [replayLoop, hp, heq, traceOfPicks, pickTrace], htipb⟩
    | empty =>
      obtain ⟨r', heq, htipb⟩ := ih hpre r rest
      exact ⟨r', by simp [replayLoop, hp, heq, traceOfPicks, pickTrace], htipb⟩
    | conflict => exact absurd hp (hnc g (List.mem_cons_self g pre))

/-- C3: in the one-parent replay loop, a step whose cherry-pick reports the
now-empty diagnostic is skipped (the trace records the pick followed by
`cherry-pick --skip`) and the loop continues, so a conflict-free sequence
never fails; the first step that fails for any other reason aborts the
replay, restores the branch reference to the backup value, and re-raises
the error. -/
theorem replayLoop_skip_empty_abort_conflict (env : Env) (b : String) (bk : Nat)
    (r : Repo) (seq : List Nat) :
    ((∀ h ∈ seq, env.pick h ≠ PickOutcome.conflict) →
      ∃ r', replayLoop env b bk r seq = (r', traceOfPicks env seq, none)) ∧
    (∀ pre h rest, seq = pre ++ h :: rest →
      (∀ g ∈ pre, env.pick g ≠ PickOutcome.conflict) →
      env.pick h = PickOutcome.conflict →
      ∃ r', replayLoop env b bk r seq =
          (r', traceOfPicks env pre ++ [Ev.pick h, Ev.pickAbort, Ev.setRef b bk],
            some (GErr.pickConflict h)) ∧
        branchTip r' b = bk) := by
  constructor
  · exact replayLoop_no_conflict_aux env b bk seq r
  · intro pre h rest hseq hnc hc
    subst hseq
    exact replayLoop_conflict_aux env b bk h hc pre hnc r rest

/-- Witness for C3: under `envSkip`, picking commit 2 reports the empty
diagnostic and is skipped while the loop finishes without an error, and
a conflict on commit 3 aborts, restores the branch to the backup value 9,
and raises the conflict. -/
theorem replayLoop_skip_empty_abort_conflict_witness :
    ((∀ h ∈ [1, 2], envSkip.pick h ≠ PickOutcome.conflict) ∧
      envSkip.pick 3 = PickOutcome.conflict) ∧
    (∃ r', replayLoop envSkip "b" 9 repo4 [1, 2] =
        (r', traceOfPicks envSkip [1, 2], none)) ∧
    (∃ r', replayLoop envSkip "b" 9 repo4 [1, 3, 2] =
        (r', traceOfPicks envSkip [1] ++ [Ev.pick 3, Ev.pickAbort, Ev.setRef "b" 9],
          some (GErr.pickConflict 3)) ∧
      branchTip r' "b" = 9) :=
  ⟨⟨by decide, by decide⟩,
    (replayLoop_skip_empty_abort_conflict envSkip "b" 9 repo4 [1, 2]).1 (by decide),
    (replayLoop_skip_empty_abort_conflict envSkip "b" 9 repo4 [1, 3, 2]).2 [1] 3 [2] rfl
      (by decide) (by decide)⟩

/-- C5 (code bug): `makeHead`'s finally block restores the original checkout
with no catch (extension.ts line 84), so in JS a failure of the restoration
replaces the body's error.  With `envMask`, the body fails with the
merge-commit-unsupported error and restoring "main" fails: the operation
surfaces the checkout failure instead of the primary error, masking it.
Under `envC`, where the restore succeeds, the same call surfaces the
primary merge-commit error — the surfaced error depends on the cleanup
step, which the spec forbids. -/
theorem makeHead_restore_masks_primary_error :
    (makeHead envMask repoMerge "feature" 2).2.2 = some (GErr.checkoutFailed "main") ∧
    (makeHead envC repoMerge "feature" 2).2.2 = some GErr.mergeUnsupported ∧
    some (GErr.checkoutFailed "main") ≠ some GErr.mergeUnsupported := by
  refine ⟨by decide, by decide, by decide⟩

/-- C7 counterexample: branch "b" consists of the single root commit 3, but
the merge scan runs against the CURRENT checkout "main" (extension.ts line
216, before the checkout switch), whose history contains the merge commit
2, so `deleteCommit` fails with the cross-merge-delete error, not the
cannot-delete-only-commit error the claim requires. -/
theorem deleteCommit_only_commit_cex :
    (deleteCommit envC repoMixed "b" 3).2.2 = some GErr.crossMergeDelete ∧
    (deleteCommit envC repoMixed "b" 3).2.2 ≠ some GErr.cannotDeleteOnly := by
  refine ⟨by decide, by decide⟩

/-- C7 (amended): for a branch whose history is exactly one root commit,
provided the merge scan of the active checkout finds no merge commit and a
checkout switch to the branch succeeds, `deleteCommit` fails with the
cannot-delete-only-commit error and leaves the branch reference
unchanged. -/
theorem deleteCommit_only_commit_fails (env : Env) (r : Repo) (b : String) (c ch : Nat)
    (hanc : isAncestor r c b = true)
    (hclean : cleanCheck r = none)
    (htipl : lookupA r.branches b = some c)
    (hlk : lookupA r.commits c = some ⟨[], ch⟩)
    (hnm : hasMergesInHistory r = false)
    (hcb : env.checkoutOk b = true) :
    ∃ r' t, deleteCommit env r b c = (r', t, some GErr.cannotDeleteOnly) ∧
      lookupA r'.branches b = some c := by
  have hnm1 : hasMergesInHistory { r with backups := setAssoc r.backups (backupName b env.ts) (branchTip r b) } = false := by
    rw [show hasMergesInHistory { r with backups := setAssoc r.backups (backupName b env.ts) (branchTip r b) } = hasMergesInHistory r from by apply hasMerges_congr <;> rfl]
    exact hnm
  have htip' : (lookupA r.branches b).getD 0 = c := by rw [htipl]; rfl
  have htipn : branchTip r b = c := htip'
  by_cases hh : r.head = b
  · have hnm2 := hnm1
    rw [hh, htipn] at hnm2
    refine ⟨{ r with backups := setAssoc r.backups (backupName b env.ts) (branchTip r b) },
      [Ev.backup (backupName b env.ts) (branchTip r b)], ?_, htipl⟩
    simp [deleteCommit, hanc, hclean, deleteBody, parentsOf, hlk, deleteRoot, hnm2, hh,
      deleteRootBody, walkAll, branchTip, htip']
  · have hnm2 := hnm1
    rw [htipn] at hnm2
    have hh' : ¬ b = r.head := fun e => hh e.symm
    by_cases hres : env.checkoutOk r.head = true
    · refine ⟨{ r with backups := setAssoc r.backups (backupName b env.ts) (branchTip r b) },
        [Ev.backup (backupName b env.ts) (branchTip r b), Ev.checkout b,
          Ev.checkout r.head], ?_, htipl⟩
      simp [deleteCommit, hanc, hclean, deleteBody, parentsOf, hlk, deleteRoot, hnm2, hh,
        hh', hcb, hres, deleteRootBody, walkAll, branchTip, htip']
    · refine ⟨{ r with head := b, backups := setAssoc r.backups (backupName b env.ts) (branchTip r b) },
        [Ev.backup (backupName b env.ts) (branchTip r b), Ev.checkout b], ?_, htipl⟩
      simp [deleteCommit, hanc, hclean, deleteBody, parentsOf, hlk, deleteRoot, hnm2, hh,
        hh', hcb, hres, deleteRootBody, walkAll, branchTip, htip']

/-- Witness for C7 (amended): branch "b" holds the single root commit 0 and
is checked out, so removal fails with the cannot-delete-only-commit error
and the reference still points at 0. -/
theorem deleteCommit_only_commit_fails_witness :
    (isAncestor repoOne 0 "b" = true ∧ cleanCheck repoOne = none ∧
      lookupA repoOne.branches "b" = some 0 ∧
      lookupA repoOne.commits 0 = some ⟨[], 10⟩ ∧
      hasMergesInHistory repoOne = false) ∧
    (∃ r' t, deleteCommit envC repoOne "b" 0 = (r', t, some GErr.cannotDeleteOnly) ∧
      lookupA r'.branches "b" = some 0) :=
  ⟨⟨by decide, by decide, by decide, by decide, by decide⟩,
    deleteCommit_only_commit_fails envC repoOne "b" 0 10 (by decide) (by decide)
      (by decide) (by decide) (by decide) (by decide)⟩

/-- C8: provided the generated backup reference name is not already present
(the timestamp is fresh), a backup reference created by either operation
points at the branch tip read immediately before mutation began, and no
existing backup entry is deleted or overwritten: every previous backup
entry survives the call, and when the operation proceeded past its
precondition checks the new entry carries the pre-mutation tip. -/
theorem backup_refs_additive (env : Env) (r : Repo) (b : String) (c : Nat)
    (hfresh : lookupA r.backups (backupName b env.ts) = none) :
    ((∀ p ∈ r.backups, p ∈ ((makeHead env r b c).1).backups) ∧
      (((makeHead env r b c).1).backups = r.backups ∨
        lookupA ((makeHead env r b c).1).backups (backupName b env.ts) =
          some (branchTip r b))) ∧
    ((∀ p ∈ r.backups, p ∈ ((deleteCommit env r b c).1).backups) ∧
      (((deleteCommit env r b c).1).backups = r.backups ∨
        lookupA ((deleteCommit env r b c).1).backups (backupName b env.ts) =
          some (branchTip r b))) := by
  have happ := setAssoc_of_lookup_none r.backups (backupName b env.ts) (branchTip r b) hfresh
  constructor
  · rcases makeHead_backups env r b c with hm | hm
    · exact ⟨fun p hp => by rw [hm]; exact hp, Or.inl hm⟩
    · rw [hm, happ]
      refine ⟨fun p hp => List.mem_append_left _ hp, Or.inr ?_⟩
      rw [lookupA_append_of_none _ _ _ hfresh]
      simp [lookupA]
  · rcases deleteCommit_backups env r b c with hm | hm
    · exact ⟨fun p hp => by rw [hm]; exact hp, Or.inl hm⟩
    · rw [hm, happ]
      refine ⟨fun p hp => List.mem_append_left _ hp, Or.inr ?_⟩
      rw [lookupA_append_of_none _ _ _ hfresh]
      simp [lookupA]

/-- Witness for C8 on `repo4`: both operations create the backup reference
pointing at the pre-mutation tip 3, and the (empty) set of prior backups is
preserved. -/
theorem backup_refs_additive_witness :
    lookupA repo4.backups (backupName "feature" envC.ts) = none ∧
    (((∀ p ∈ repo4.backups, p ∈ ((makeHead envC repo4 "feature" 1).1).backups) ∧
      (((makeHead envC repo4 "feature" 1).1).backups = repo4.backups ∨
        lookupA ((makeHead envC repo4 "feature" 1).1).backups
          (backupName "feature" envC.ts) = some (branchTip repo4 "feature"))) ∧
    ((∀ p ∈ repo4.backups, p ∈ ((deleteCommit envC repo4 "feature" 1).1).backups) ∧
      (((deleteCommit envC repo4 "feature" 1).1).backups = repo4.backups ∨
        lookupA ((deleteCommit envC repo4 "feature" 1).1).backups
          (backupName "feature" envC.ts) = some (branchTip repo4 "feature")))) :=
  ⟨by decide, backup_refs_additive envC repo4 "feature" 1 (by decide)⟩

/-- C9: the number of commits `getCommits` requests from git is the clamp
max(1, min(500, limit)): it always lies between 1 and 500 — in particular a
zero, negative, or arbitrarily large requested limit still requests between
1 and 500 commits — equals 1 for any limit below 1, equals 500 for any
limit above 500, and equals the requested limit when already in range. -/
theorem getCommitsN_clamped (limit : Int) :
    1 ≤ getCommitsN limit ∧ getCommitsN limit ≤ 500 ∧
      (limit ≤ 0 → getCommitsN limit = 1) ∧
      (500 ≤ limit → getCommitsN limit = 500) ∧
      (1 ≤ limit → limit ≤ 500 → getCommitsN limit = limit) := by
  unfold getCommitsN
  refine ⟨?_, ?_, fun h => ?_, fun h => ?_, fun h1 h2 => ?_⟩ <;> omega

/-- Witness for C9: a negative limit requests 1 commit, an oversized limit
requests 500, and an in-range limit is passed through. -/
theorem getCommitsN_clamped_witness :
    ((-5 : Int) ≤ 0 ∧ getCommitsN (-5) = 1) ∧
    (500 ≤ (750 : Int) ∧ getCommitsN 750 = 500) ∧
    (1 ≤ (50 : Int) ∧ (50 : Int) ≤ 500 ∧ getCommitsN 50 = 50) :=
  ⟨⟨by decide, (getCommitsN_clamped (-5)).2.2.1 (by decide)⟩,
    ⟨by decide, (getCommitsN_clamped 750).2.2.2.1 (by decide)⟩,
    ⟨by decide, by decide, (getCommitsN_clamped 50).2.2.2.2 (by decide) (by decide)⟩⟩

end Gitify
